import Mathlib

set_option maxHeartbeats 1000000

/-!
Shallow embedding of `simulocloud/pointcloud.py`: the `PointCloud` container,
its `Bounds` model, and the crop / split / merge / prefilter operations.

Coordinates are modelled as rationals.  A Python float appearing as a bound
value is either finite or an infinity (`Ext`); a `Bounds` field is `none`
(Python `None`) or such a value.  A `PointCloud`'s `3×n` coordinate array is
modelled as the list of its columns (points), in column order.
-/

namespace Simulocloud

/-- A Python float value as used for bounds: `-inf`, finite, or `inf`. -/
inductive Ext where
  | ninf : Ext
  | fin : ℚ → Ext
  | pinf : Ext
deriving DecidableEq, Repr

/-- Float comparison `a <= b` (no NaNs arise in the modelled code). -/
def Ext.ble : Ext → Ext → Bool
  | .ninf, _ => true
  | _, .pinf => true
  | .pinf, _ => false
  | _, .ninf => false
  | .fin a, .fin b => decide (a ≤ b)

/-- The order `a ≤ b` on float values, as a proposition. -/
def Ext.le (a b : Ext) : Prop := Ext.ble a b = true

/-- The strict order `a < b` on float values, as a proposition. -/
def Ext.lt (a b : Ext) : Prop := Ext.ble b a = false

/-- One step of a `numpy` `min` reduction over float values. -/
def Ext.emin (a b : Ext) : Ext := if Ext.ble a b then a else b

/-- One step of a `numpy` `max` reduction over float values. -/
def Ext.emax (a b : Ext) : Ext := if Ext.ble a b then b else a

/-- A coordinate axis: the rows `0, 1, 2` of the `3×n` array. -/
inductive Axis where
  | x : Axis
  | y : Axis
  | z : Axis
deriving DecidableEq, Repr

/-- A point: one column of the `3×n` coordinate array. -/
structure Pt where
  x : ℚ
  y : ℚ
  z : ℚ
deriving DecidableEq, Repr

/-- The component of a point along an axis. -/
def Pt.coord (p : Pt) : Axis → ℚ
  | .x => p.x
  | .y => p.y
  | .z => p.z

/-- The `PointCloud` coordinate buffer: the list of columns of `self._arr`. -/
abbrev PointCloud := List Pt

/-- The `Bounds` namedtuple `(minx, miny, minz, maxx, maxy, maxz)`: each field
is `None` (`none`) or a float value. -/
structure Bounds where
  minx : Option Ext
  miny : Option Ext
  minz : Option Ext
  maxx : Option Ext
  maxy : Option Ext
  maxz : Option Ext
deriving DecidableEq, Repr

/-- The field `bounds[i]` for axis row `i` (lower bounds). -/
def Bounds.minOf (b : Bounds) : Axis → Option Ext
  | .x => b.minx
  | .y => b.miny
  | .z => b.minz

/-- The field `bounds[i+3]` for axis row `i` (upper bounds). -/
def Bounds.maxOf (b : Bounds) : Axis → Option Ext
  | .x => b.maxx
  | .y => b.maxy
  | .z => b.maxz

/-- The all-`None` box `Bounds(*(None,)*6)` used by `split` and the tests. -/
def none_bounds : Bounds := ⟨none, none, none, none, none, none⟩

/-- The `_replace` call `none-box._replace(min-axis = loc)` used by `split`. -/
def replaceMin (a : Axis) (v : Ext) (b : Bounds) : Bounds :=
  match a with
  | .x => { b with minx := some v }
  | .y => { b with miny := some v }
  | .z => { b with minz := some v }

/-- The corresponding `_replace` on an upper bound (used to state claims). -/
def replaceMax (a : Axis) (v : Ext) (b : Bounds) : Bounds :=
  match a with
  | .x => { b with maxx := some v }
  | .y => { b with maxy := some v }
  | .z => { b with maxz := some v }

/-- The comparison `np.less(coords, bound)` of a finite coordinate against a
float bound. -/
def cmpLt (c : ℚ) : Ext → Bool
  | .ninf => false
  | .fin q => decide (c < q)
  | .pinf => true

/-- The comparison `np.greater_equal(coords, bound)`. -/
def cmpGe (c : ℚ) : Ext → Bool
  | .ninf => true
  | .fin q => decide (q ≤ c)
  | .pinf => false

/-- The two comparisons yielded for one axis by `_iter_points_out_of_bounds`
(`x < minx`, `x >= maxx`), a `None` bound being skipped, OR-ed together as in
`points_out_of_bounds`. -/
def axisOut (b : Bounds) (p : Pt) (a : Axis) : Bool :=
  (match b.minOf a with
   | none => false
   | some v => cmpLt (p.coord a) v) ||
  (match b.maxOf a with
   | none => false
   | some v => cmpGe (p.coord a) v)

/-- The entry of the `points_out_of_bounds` mask for one point: the OR over
all six (non-`None`) bound comparisons, in the row order `x, y, z`. -/
def point_out_of_bounds (b : Bounds) (p : Pt) : Bool :=
  axisOut b p .x || axisOut b p .y || axisOut b p .z

/-- The method `PointCloud.crop`.  The Python method returns a new cloud (or
raises `EmptyPointCloud`, modelled as `.error bounds`, the message carrying
the attempted box) and, on the destructive path, reassigns `self._arr`; the
second component is the state of the source cloud's buffer after the call.
The mask indexing `self._arr[:, ~oob]` / `self._arr[:, oob]` keeps columns in
their original order, hence the two `filter`s. -/
def crop (pc : PointCloud) (bounds : Bounds) (destructive allow_empty : Bool) :
    Except Bounds PointCloud × PointCloud :=
  if pc.all (point_out_of_bounds bounds) then
    if allow_empty then (.ok [], pc) else (.error bounds, pc)
  else
    (.ok (pc.filter (fun p => !point_out_of_bounds bounds p)),
     if destructive then pc.filter (point_out_of_bounds bounds) else pc)

/-- The `numpy` reduction `arr.min()` over a nonempty coordinate row, written
with the first element as the accumulator seed. -/
def arrMin (c : ℚ) (cs : List ℚ) : ℚ := cs.foldl min c

/-- The `numpy` reduction `arr.max()` over a nonempty coordinate row. -/
def arrMax (c : ℚ) (cs : List ℚ) : ℚ := cs.foldl max c

/-- The property `PointCloud.bounds`: the tight box over all points, or the
`EmptyPointCloud` error (modelled `none`) when the cloud has no points (the
`ValueError` of `min`/`max` on an empty array). -/
def PointCloud.bounds : PointCloud → Option Bounds
  | [] => none
  | p :: ps =>
    some ⟨some (.fin (arrMin p.x (ps.map Pt.x))),
          some (.fin (arrMin p.y (ps.map Pt.y))),
          some (.fin (arrMin p.z (ps.map Pt.z))),
          some (.fin (arrMax p.x (ps.map Pt.x))),
          some (.fin (arrMax p.y (ps.map Pt.y))),
          some (.fin (arrMax p.z (ps.map Pt.z)))⟩

/-- Python's `sorted` on a list of numbers: the unique ascending reordering. -/
def sortedAsc (locs : List ℚ) : List ℚ := List.insertionSort (· ≤ ·) locs

/-- The list comprehension inside `PointCloud.split`: one destructive crop per
location (the locations are fed highest to lowest), threading the mutated
copy; a raised `EmptyPointCloud` aborts the whole comprehension. -/
def splitCrops (a : Axis) (allow_empty : Bool) :
    List ℚ → PointCloud → Except Bounds (List PointCloud × PointCloud)
  | [], pc => .ok ([], pc)
  | loc :: rest, pc =>
    match crop pc (replaceMin a (.fin loc) none_bounds) true allow_empty with
    | (.error b, _) => .error b
    | (.ok seg, pc') =>
      match splitCrops a allow_empty rest pc' with
      | .error b => .error b
      | .ok (segs, final) => .ok (seg :: segs, final)

/-- The method `PointCloud.split` (with `pctype` left at its default).  The
copy `pc = pctype(self._arr)` owns a fresh buffer (`np.stack` copies), so only
that copy is cropped destructively; `split` returns the list of segments
`(pcs + [pc])[::-1]`.  See `splitH` for the buffer-level view of the copy. -/
def split (pc : PointCloud) (a : Axis) (locs : List ℚ) (allow_empty : Bool) :
    Except Bounds (List PointCloud) :=
  match splitCrops a allow_empty ((sortedAsc locs).reverse) pc with
  | .error b => .error b
  | .ok (segs, final) => .ok ((segs ++ [final]).reverse)

/-- The function `merge`: an array of size the sum of the input lengths is
preallocated and filled slice by slice in input order, so the columns of the
result are the concatenation of the inputs' columns. -/
def merge (pointclouds : List PointCloud) : PointCloud := pointclouds.flatten

/-- `InfBounds`: the six fields of a box with every `None` coerced to the
appropriate infinity (`-inf` for minima, `inf` for maxima). -/
structure InfBounds where
  minx : Ext
  miny : Ext
  minz : Ext
  maxx : Ext
  maxy : Ext
  maxz : Ext
deriving DecidableEq, Repr

/-- The coercion `InfBounds(*bounds)` applied to a `Bounds`. -/
def toInfBounds (b : Bounds) : InfBounds :=
  ⟨b.minx.getD .ninf, b.miny.getD .ninf, b.minz.getD .ninf,
   b.maxx.getD .pinf, b.maxy.getD .pinf, b.maxz.getD .pinf⟩

/-- The function `merge_bounds`: coerce every input box with `InfBounds`, then
take the columnwise `min` of the minima and `max` of the maxima.  On an empty
input sequence the `numpy` column indexing fails, modelled as `none`. -/
def merge_bounds : List Bounds → Option Bounds
  | [] => none
  | b :: bs =>
    some ⟨some (((bs.map toInfBounds).map InfBounds.minx).foldl Ext.emin (toInfBounds b).minx),
          some (((bs.map toInfBounds).map InfBounds.miny).foldl Ext.emin (toInfBounds b).miny),
          some (((bs.map toInfBounds).map InfBounds.minz).foldl Ext.emin (toInfBounds b).minz),
          some (((bs.map toInfBounds).map InfBounds.maxx).foldl Ext.emax (toInfBounds b).maxx),
          some (((bs.map toInfBounds).map InfBounds.maxy).foldl Ext.emax (toInfBounds b).maxy),
          some (((bs.map toInfBounds).map InfBounds.maxz).foldl Ext.emax (toInfBounds b).maxz)⟩

/-- The header box of a `.las` file as `_get_las_bounds` reads it: six plain
(finite) numbers from the file metadata. -/
structure LasBounds where
  minx : ℚ
  miny : ℚ
  minz : ℚ
  maxx : ℚ
  maxy : ℚ
  maxz : ℚ
deriving DecidableEq, Repr

/-- The function `_intersects_1D` on `(min, max)` pairs:
`False if (B[1] <= A[0]) or (B[0] >= A[1]) else True`. -/
def intersects_1D (A B : Ext × Ext) : Bool :=
  !(Ext.ble B.2 A.1 || Ext.ble A.2 B.1)

/-- The function `_intersects_3D` applied to a coerced query box `A` and a
file header box `B`: all three axes must pass `_intersects_1D`. -/
def intersects_3D (A : InfBounds) (B : LasBounds) : Bool :=
  intersects_1D (A.minx, A.maxx) (.fin B.minx, .fin B.maxx) &&
  intersects_1D (A.miny, A.maxy) (.fin B.miny, .fin B.maxy) &&
  intersects_1D (A.minz, A.maxz) (.fin B.minz, .fin B.maxz)

/-- The function `filter_fpaths`, with the header-bounds probe
`_get_las_bounds` (an external collaborator reading file metadata) abstracted
as `hdr`. -/
def filter_fpaths {P : Type} (hdr : P → LasBounds) (fpaths : List P)
    (bounds : Bounds) : List P :=
  fpaths.filter (fun fp => intersects_3D (toInfBounds bounds) (hdr fp))

/-- The key list of the CPython 2 dict built by
`{fpath: npoints(fpath) for fpath in fpaths}`: one slot per distinct path (a
repeated path overwrites its slot).  The iteration order of a Python 2 dict is
hash-dependent and unspecified; it is modelled here as first-insertion order —
the result proved about `_combine_las` below does not depend on this choice,
only on the deduplication. -/
def dictKeys {P : Type} [DecidableEq P] (fpaths : List P) : List P :=
  fpaths.foldl (fun ks k => if k ∈ ks then ks else ks ++ [k]) []

/-- The function `_combine_las`, with the `.las` reader abstracted: `read fp`
is the `[f.x, f.y, f.z]` data of file `fp`, whose header count is accurate
(`_get_las_npoints fp = (read fp).length`).  `npoints` is the sum of the sizes
over the dict's entries, and the preallocated array is filled once per dict
key, so the resulting columns are the concatenation of the data of the dict's
keys. -/
def combine_las {P : Type} [DecidableEq P] (read : P → PointCloud)
    (fpaths : List P) : PointCloud :=
  ((dictKeys fpaths).map read).flatten

/-- A buffer store for the aliasing analysis of `split`: cloud object `i` owns
buffer `h[i]` (an out-of-range read gives `[]`). -/
abbrev Heap := List PointCloud

/-- Read the buffer owned by cloud object `i`. -/
def heapGet (h : Heap) (i : ℕ) : PointCloud := h.getD i []

/-- Destructive `crop` at the buffer level: `self.__init__(self._arr[:, oob])`
mutates only the buffer of object `i`; on the empty-result path (raise or
`allow_empty`) no mutation happens.  The cropped result is returned as a
fresh value. -/
def cropH (h : Heap) (i : ℕ) (bounds : Bounds) (allow_empty : Bool) :
    Except Bounds (Heap × PointCloud) :=
  if (heapGet h i).all (point_out_of_bounds bounds) then
    if allow_empty then .ok (h, []) else .error bounds
  else
    .ok (h.set i ((heapGet h i).filter (point_out_of_bounds bounds)),
         (heapGet h i).filter (fun p => !point_out_of_bounds bounds p))

/-- The `split` comprehension at the buffer level: every destructive crop
targets cloud object `i`. -/
def splitCropsH (a : Axis) (allow_empty : Bool) (i : ℕ) :
    List ℚ → Heap → Except Bounds (Heap × List PointCloud)
  | [], h => .ok (h, [])
  | loc :: rest, h =>
    match cropH h i (replaceMin a (.fin loc) none_bounds) allow_empty with
    | .error b => .error b
    | .ok (h', seg) =>
      match splitCropsH a allow_empty i rest h' with
      | .error b => .error b
      | .ok (h'', segs) => .ok (h'', seg :: segs)

/-- The method `PointCloud.split` at the buffer level.  The constructor call
`pc = pctype(self._arr)` runs `np.stack` on the rows of `self._arr`, which
allocates a fresh buffer: modelled by appending a new heap cell holding a copy
of `self`'s buffer.  All destructive crops then target that fresh cell, and
the final contents of the cell become the last segment before reversal. -/
def splitH (h : Heap) (self : ℕ) (a : Axis) (locs : List ℚ)
    (allow_empty : Bool) : Except Bounds (Heap × List PointCloud) :=
  match splitCropsH a allow_empty h.length ((sortedAsc locs).reverse)
      (h ++ [heapGet h self]) with
  | .error b => .error b
  | .ok (h2, segs) => .ok (h2, (segs ++ [heapGet h2 h.length]).reverse)

/-! Specification-side definitions, written from the spec's and the claims'
words, to be compared with the code-side definitions above. -/

/-- The out-of-bounds classification as the claims word it: on some axis, the
box's lower bound is present (not `None`) and the coordinate is strictly less
than it, or the upper bound is present and the coordinate is greater than or
equal to it. -/
def spec_out_of_bounds (b : Bounds) (p : Pt) : Prop :=
  ∃ a : Axis,
    (∃ v, b.minOf a = some v ∧ Ext.lt (.fin (p.coord a)) v) ∨
    (∃ v, b.maxOf a = some v ∧ Ext.le v (.fin (p.coord a)))

/-- The per-axis intersection test as the claims word it, for query sides
`qmin`, `qmax` and file header interval `[fmin, fmax]`:
`NOT (b.max <= a.min OR b.min >= a.max)`, a `None` query side always
passing. -/
def SpecAxisPass (qmin qmax : Option Ext) (fmin fmax : ℚ) : Prop :=
  (∀ v, qmin = some v → ¬ Ext.le (.fin fmax) v) ∧
  (∀ v, qmax = some v → ¬ Ext.le v (.fin fmin))

/-- The three-axis intersection test of the claims, between a query box and a
file header box. -/
def SpecIntersects (b : Bounds) (fb : LasBounds) : Prop :=
  SpecAxisPass b.minx b.maxx fb.minx fb.maxx ∧
  SpecAxisPass b.miny b.maxy fb.miny fb.maxy ∧
  SpecAxisPass b.minz b.maxz fb.minz fb.maxz

/-- Membership of a coordinate in segment `k` of a split at the ascending
sorted locations `s`: the half-open interval `[s (k-1), s k)`, the first
segment having no lower limit and the last no upper limit. -/
def segPred (s : List ℚ) (k : ℕ) (c : ℚ) : Bool :=
  (match k with
   | 0 => true
   | k' + 1 =>
     match s[k']? with
     | some lo => decide (lo ≤ c)
     | none => true) &&
  (match s[k]? with
   | some hi => decide (c < hi)
   | none => true)

/-- Strictly below an optional upper limit (`none` = no limit). -/
def belowOpt : Option ℚ → ℚ → Bool
  | none, _ => true
  | some h, c => decide (c < h)

/-- Membership in the half-open interval `[lo, hi)` (`hi = none` = no limit). -/
def between (lo : ℚ) (hi : Option ℚ) (c : ℚ) : Bool :=
  decide (lo ≤ c) && belowOpt hi c

/-- The `(lower, upper)` interval ends produced by processing the descending
location list: each location is a lower end, the previous one (or the initial
limit) the upper end. -/
def intervalsDesc : Option ℚ → List ℚ → List (ℚ × Option ℚ)
  | _, [] => []
  | hi, d :: ds => (d, hi) :: intervalsDesc (some d) ds

/-- The same interval ends read off an ascending location list: consecutive
pairs, the last location paired with the final limit. -/
def adjPairs : List ℚ → Option ℚ → List (ℚ × Option ℚ)
  | [], _ => []
  | [a], hi => [(a, hi)]
  | a :: b :: rest, hi => (a, some b) :: adjPairs (b :: rest) hi

/-- `m` is the minimum of the list `l`: a member that is below every member. -/
def IsMinOf (m : ℚ) (l : List ℚ) : Prop := m ∈ l ∧ ∀ c ∈ l, m ≤ c

/-- `m` is the maximum of the list `l`. -/
def IsMaxOf (m : ℚ) (l : List ℚ) : Prop := m ∈ l ∧ ∀ c ∈ l, c ≤ m

/-- `m` is the minimum of a list of float values. -/
def IsExtMinOf (m : Ext) (l : List Ext) : Prop :=
  m ∈ l ∧ ∀ v ∈ l, Ext.ble m v = true

/-- `m` is the maximum of a list of float values. -/
def IsExtMaxOf (m : Ext) (l : List Ext) : Prop :=
  m ∈ l ∧ ∀ v ∈ l, Ext.ble v m = true

/-! Concrete sample data used to instantiate the theorems below. -/

/-- A sample point at the origin. -/
def ptA : Pt := ⟨0, 0, 0⟩

/-- A sample point at `x = 5`. -/
def ptB : Pt := ⟨5, 0, 0⟩

/-- A sample two-point cloud. -/
def pcW : PointCloud := [ptA, ptB]

/-- A sample box bounded below at `x = 1` only. -/
def boundsW : Bounds := ⟨some (.fin 1), none, none, none, none, none⟩

/-- A sample box with an unbounded `minx` side. -/
def boundsN : Bounds :=
  ⟨none, some (.fin 0), some (.fin 0), some (.fin 1), some (.fin 1), some (.fin 1)⟩

/-- A sample file header box. -/
def lasW : LasBounds := ⟨0, 0, 0, 1, 1, 1⟩

/-- A sample reader for `combine_las`: every path holds one point. -/
def readW : ℕ → PointCloud := fun _ => [ptA]

/-! Helper lemmas about the float order and the fold reductions. -/

theorem Ext.ble_refl (a : Ext) : Ext.ble a a = true := by
  cases a <;> simp [Ext.ble]

theorem Ext.ble_total (a b : Ext) : Ext.ble a b = true ∨ Ext.ble b a = true := by
  cases a <;> cases b <;> simp [Ext.ble] <;> exact le_total _ _

theorem Ext.ble_trans {a b c : Ext} (h1 : Ext.ble a b = true)
    (h2 : Ext.ble b c = true) : Ext.ble a c = true := by
  cases a <;> cases b <;> cases c <;> simp_all [Ext.ble] <;> exact le_trans h1 h2

theorem Ext.emin_ble_left (a b : Ext) : Ext.ble (Ext.emin a b) a = true := by
  unfold Ext.emin
  by_cases h : Ext.ble a b = true
  · rw [if_pos h]; exact Ext.ble_refl a
  · rw [if_neg h]
    rcases Ext.ble_total a b with h' | h'
    · exact absurd h' h
    · exact h'

theorem Ext.emin_ble_right (a b : Ext) : Ext.ble (Ext.emin a b) b = true := by
  unfold Ext.emin
  by_cases h : Ext.ble a b = true
  · rw [if_pos h]; exact h
  · rw [if_neg h]; exact Ext.ble_refl b

theorem Ext.emax_ble_left (a b : Ext) : Ext.ble a (Ext.emax a b) = true := by
  unfold Ext.emax
  by_cases h : Ext.ble a b = true
  · rw [if_pos h]; exact h
  · rw [if_neg h]; exact Ext.ble_refl a

theorem Ext.emax_ble_right (a b : Ext) : Ext.ble b (Ext.emax a b) = true := by
  unfold Ext.emax
  by_cases h : Ext.ble a b = true
  · rw [if_pos h]; exact Ext.ble_refl b
  · rw [if_neg h]
    rcases Ext.ble_total a b with h' | h'
    · exact absurd h' h
    · exact h'

theorem foldl_choice_mem {α : Type} (op : α → α → α)
    (hop : ∀ a b, op a b = a ∨ op a b = b) :
    ∀ (l : List α) (a : α), l.foldl op a ∈ a :: l := by
  intro l
  induction l with
  | nil => intro a; simp
  | cons b t ih =>
    intro a
    rw [List.foldl_cons]
    have hmem := ih (op a b)
    rcases List.mem_cons.mp hmem with h | h
    · rcases hop a b with h' | h'
      · exact List.mem_cons.mpr (Or.inl (h.trans h'))
      · exact List.mem_cons.mpr (Or.inr (List.mem_cons.mpr (Or.inl (h.trans h'))))
    · exact List.mem_cons.mpr (Or.inr (List.mem_cons.mpr (Or.inr h)))

theorem foldl_min_le : ∀ (l : List ℚ) (a : ℚ), ∀ d ∈ a :: l, l.foldl min a ≤ d := by
  intro l
  induction l with
  | nil =>
    intro a d hd
    rcases List.mem_cons.mp hd with h | h
    · simp [h]
    · simp at h
  | cons b t ih =>
    intro a d hd
    rw [List.foldl_cons]
    rcases List.mem_cons.mp hd with h | h
    · rw [h]
      exact le_trans (ih (min a b) (min a b) (List.mem_cons_self _ _)) (min_le_left a b)
    · rcases List.mem_cons.mp h with h' | h'
      · rw [h' ]
        exact le_trans (ih (min a b) (min a b) (List.mem_cons_self _ _)) (min_le_right a b)
      · exact ih (min a b) d (List.mem_cons.mpr (Or.inr h'))

theorem foldl_max_ge : ∀ (l : List ℚ) (a : ℚ), ∀ d ∈ a :: l, d ≤ l.foldl max a := by
  intro l
  induction l with
  | nil =>
    intro a d hd
    rcases List.mem_cons.mp hd with h | h
    · simp [h]
    · simp at h
  | cons b t ih =>
    intro a d hd
    rw [List.foldl_cons]
    rcases List.mem_cons.mp hd with h | h
    · rw [h]
      exact le_trans (le_max_left a b) (ih (max a b) (max a b) (List.mem_cons_self _ _))
    · rcases List.mem_cons.mp h with h' | h'
      · rw [h' ]
        exact le_trans (le_max_right a b) (ih (max a b) (max a b) (List.mem_cons_self _ _))
      · exact ih (max a b) d (List.mem_cons.mpr (Or.inr h'))

theorem foldl_emin_ble : ∀ (l : List Ext) (a : Ext), ∀ v ∈ a :: l,
    Ext.ble (l.foldl Ext.emin a) v = true := by
  intro l
  induction l with
  | nil =>
    intro a v hv
    rcases List.mem_cons.mp hv with h | h
    · subst h; exact Ext.ble_refl v
    · simp at h
  | cons b t ih =>
    intro a v hv
    rw [List.foldl_cons]
    rcases List.mem_cons.mp hv with h | h
    · rw [h]
      exact Ext.ble_trans (ih (Ext.emin a b) (Ext.emin a b) (List.mem_cons_self _ _))
        (Ext.emin_ble_left a b)
    · rcases List.mem_cons.mp h with h' | h'
      · rw [h' ]
        exact Ext.ble_trans (ih (Ext.emin a b) (Ext.emin a b) (List.mem_cons_self _ _))
          (Ext.emin_ble_right a b)
      · exact ih (Ext.emin a b) v (List.mem_cons.mpr (Or.inr h'))

theorem foldl_emax_ble : ∀ (l : List Ext) (a : Ext), ∀ v ∈ a :: l,
    Ext.ble v (l.foldl Ext.emax a) = true := by
  intro l
  induction l with
  | nil =>
    intro a v hv
    rcases List.mem_cons.mp hv with h | h
    · subst h; exact Ext.ble_refl v
    · simp at h
  | cons b t ih =>
    intro a v hv
    rw [List.foldl_cons]
    rcases List.mem_cons.mp hv with h | h
    · rw [h]
      exact Ext.ble_trans (Ext.emax_ble_left a b)
        (ih (Ext.emax a b) (Ext.emax a b) (List.mem_cons_self _ _))
    · rcases List.mem_cons.mp h with h' | h'
      · rw [h' ]
        exact Ext.ble_trans (Ext.emax_ble_right a b)
          (ih (Ext.emax a b) (Ext.emax a b) (List.mem_cons_self _ _))
      · exact ih (Ext.emax a b) v (List.mem_cons.mpr (Or.inr h'))

theorem foldl_min_extract : ∀ (l : List ℚ) (a b : ℚ),
    l.foldl min (min a b) = min a (l.foldl min b) := by
  intro l
  induction l with
  | nil => intro a b; rfl
  | cons c t ih =>
    intro a b
    rw [List.foldl_cons, List.foldl_cons, min_assoc, ih a (min b c)]

theorem foldl_max_extract : ∀ (l : List ℚ) (a b : ℚ),
    l.foldl max (max a b) = max a (l.foldl max b) := by
  intro l
  induction l with
  | nil => intro a b; rfl
  | cons c t ih =>
    intro a b
    rw [List.foldl_cons, List.foldl_cons, max_assoc, ih a (max b c)]

/-! Helper lemmas about the out-of-bounds predicate and `crop`. -/

theorem cmpLt_iff (c : ℚ) (v : Ext) : cmpLt c v = true ↔ Ext.lt (.fin c) v := by
  cases v <;> simp [cmpLt, Ext.lt, Ext.ble, not_le]

theorem cmpGe_iff (c : ℚ) (v : Ext) : cmpGe c v = true ↔ Ext.le v (.fin c) := by
  cases v <;> simp [cmpGe, Ext.le, Ext.ble]

theorem axisOut_iff (b : Bounds) (p : Pt) (a : Axis) :
    axisOut b p a = true ↔
      ((∃ v, b.minOf a = some v ∧ Ext.lt (.fin (p.coord a)) v) ∨
       (∃ v, b.maxOf a = some v ∧ Ext.le v (.fin (p.coord a)))) := by
  rcases hm : b.minOf a with _ | v <;> rcases hM : b.maxOf a with _ | w <;>
    simp [axisOut, hm, hM, cmpLt_iff, cmpGe_iff]

theorem point_oob_iff (b : Bounds) (p : Pt) :
    point_out_of_bounds b p = true ↔ spec_out_of_bounds b p := by
  unfold point_out_of_bounds spec_out_of_bounds
  rw [Bool.or_eq_true, Bool.or_eq_true]
  constructor
  · rintro ((h | h) | h)
    exacts [⟨.x, (axisOut_iff b p .x).mp h⟩,
            ⟨.y, (axisOut_iff b p .y).mp h⟩,
            ⟨.z, (axisOut_iff b p .z).mp h⟩]
  · rintro ⟨a, h⟩
    cases a
    · exact Or.inl (Or.inl ((axisOut_iff b p .x).mpr h))
    · exact Or.inl (Or.inr ((axisOut_iff b p .y).mpr h))
    · exact Or.inr ((axisOut_iff b p .z).mpr h)

theorem oob_replaceMin (a : Axis) (loc : ℚ) (p : Pt) :
    point_out_of_bounds (replaceMin a (.fin loc) none_bounds) p
      = decide (p.coord a < loc) := by
  cases a <;>
    simp [point_out_of_bounds, axisOut, replaceMin, none_bounds,
      Bounds.minOf, Bounds.maxOf, cmpLt, Pt.coord]

theorem oob_replaceMax (a : Axis) (loc : ℚ) (p : Pt) :
    point_out_of_bounds (replaceMax a (.fin loc) none_bounds) p
      = decide (loc ≤ p.coord a) := by
  cases a <;>
    simp [point_out_of_bounds, axisOut, replaceMax, none_bounds,
      Bounds.minOf, Bounds.maxOf, cmpGe, Pt.coord]

theorem crop_destructive_allow (pc : PointCloud) (b : Bounds) :
    crop pc b true true =
      (.ok (pc.filter (fun p => !point_out_of_bounds b p)),
       pc.filter (point_out_of_bounds b)) := by
  unfold crop
  by_cases h : pc.all (point_out_of_bounds b) = true
  · rw [if_pos h]
    have hall := List.all_eq_true.mp h
    have h1 : pc.filter (fun p => !point_out_of_bounds b p) = [] := by
      rw [List.filter_eq_nil_iff]
      intro p hp
      simp [hall p hp]
    have h2 : pc.filter (point_out_of_bounds b) = pc :=
      List.filter_eq_self.mpr hall
    rw [h1, h2]
    simp
  · rw [if_neg h]
    simp

/-- C1: `crop` classifies a point as out of bounds iff, on some axis, a
non-`None` lower bound strictly exceeds the coordinate or a non-`None` upper
bound is at most the coordinate; hence a point exactly at a finite lower bound
is retained by `crop`, a point exactly at a finite upper bound is excluded,
and a box whose sides are all `None` excludes no point. -/
theorem C1_crop_out_of_bounds :
    (∀ (b : Bounds) (p : Pt),
        point_out_of_bounds b p = true ↔ spec_out_of_bounds b p) ∧
    (∀ (a : Axis) (p : Pt),
        crop [p] (replaceMin a (.fin (p.coord a)) none_bounds) false false
          = (.ok [p], [p])) ∧
    (∀ (a : Axis) (p : Pt),
        crop [p] (replaceMax a (.fin (p.coord a)) none_bounds) false true
          = (.ok [], [p])) ∧
    (∀ p : Pt, point_out_of_bounds none_bounds p = false) := by
  refine ⟨point_oob_iff, ?_, ?_, ?_⟩
  · intro a p
    have h := oob_replaceMin a (p.coord a) p
    simp only [lt_self_iff_false, decide_False] at h
    simp [crop, h]
  · intro a p
    have h := oob_replaceMax a (p.coord a) p
    simp only [le_refl, decide_True] at h
    simp [crop, h]
  · intro p
    simp [point_out_of_bounds, axisOut, none_bounds, Bounds.minOf, Bounds.maxOf]

/-- Witness for C1: the point at the origin is out of the sample box bounded
below at `x = 1`, also by the spec's description. -/
theorem C1_crop_out_of_bounds_witness : spec_out_of_bounds boundsW ptA :=
  (C1_crop_out_of_bounds.1 boundsW ptA).mp (by decide)

/-- C2: when at least one point of the cloud is in bounds, destructive crop
returns the in-bounds points in their original order and leaves exactly the
out-of-bounds points in the source — a lossless partition of the original
points — while non-destructive crop returns the same cloud and leaves the
source unchanged. -/
theorem C2_crop_partition :
    ∀ (pc : PointCloud) (b : Bounds) (ae : Bool),
      (∃ p ∈ pc, point_out_of_bounds b p = false) →
      crop pc b true ae =
          (.ok (pc.filter (fun p => !point_out_of_bounds b p)),
           pc.filter (point_out_of_bounds b)) ∧
        (pc.filter (fun p => !point_out_of_bounds b p) ++
          pc.filter (point_out_of_bounds b)).Perm pc ∧
        crop pc b false ae =
          (.ok (pc.filter (fun p => !point_out_of_bounds b p)), pc) := by
  rintro pc b ae ⟨p, hp, hfalse⟩
  have hna : ¬ pc.all (point_out_of_bounds b) = true := by
    intro hall
    have := List.all_eq_true.mp hall p hp
    rw [this] at hfalse
    exact Bool.noConfusion hfalse
  refine ⟨?_, ?_, ?_⟩
  · unfold crop
    rw [if_neg hna]
    simp
  · have hperm := List.filter_append_perm (fun p => !point_out_of_bounds b p) pc
    simp only [Bool.not_not] at hperm
    exact hperm
  · unfold crop
    rw [if_neg hna]
    simp

/-- Witness for C2 at the sample cloud and box. -/
theorem C2_crop_partition_witness :
    crop pcW boundsW true false =
        (.ok (pcW.filter (fun p => !point_out_of_bounds boundsW p)),
         pcW.filter (point_out_of_bounds boundsW)) ∧
      (pcW.filter (fun p => !point_out_of_bounds boundsW p) ++
        pcW.filter (point_out_of_bounds boundsW)).Perm pcW ∧
      crop pcW boundsW false false =
        (.ok (pcW.filter (fun p => !point_out_of_bounds boundsW p)), pcW) :=
  C2_crop_partition pcW boundsW false ⟨ptB, by decide, by decide⟩

/-- C3: `crop` fails — with the attempted box as the error payload — iff every
point of the cloud is out of bounds (vacuously so for the zero-point cloud)
and `allow_empty` is false; if every point is out of bounds and `allow_empty`
is true it returns the empty cloud instead; and in the failure case the source
cloud is unchanged even when `destructive` is true. -/
theorem C3_crop_empty_error :
    ∀ (pc : PointCloud) (b : Bounds) (destructive ae : Bool),
      ((crop pc b destructive ae).1 = .error b ↔
        ((∀ p ∈ pc, point_out_of_bounds b p = true) ∧ ae = false)) ∧
      ((∀ p ∈ pc, point_out_of_bounds b p = true) → ae = true →
        crop pc b destructive ae = (.ok [], pc)) ∧
      ((crop pc b destructive ae).1 = .error b →
        (crop pc b destructive ae).2 = pc) ∧
      crop ([] : PointCloud) b destructive false = (.error b, []) := by
  intro pc b d ae
  by_cases h : pc.all (point_out_of_bounds b) = true
  · have hall := List.all_eq_true.mp h
    refine ⟨?_, ?_, ?_, ?_⟩
    · cases ae
      · simp [crop, h]
        exact hall
      · simp [crop, h]
    · intro _ hae
      subst hae
      simp [crop, h]
    · intro herr
      cases ae
      · simp [crop, h]
      · simp [crop, h] at herr
    · simp [crop]
  · have hnall : ¬ ∀ p ∈ pc, point_out_of_bounds b p = true :=
      fun hx => h (List.all_eq_true.mpr hx)
    refine ⟨?_, ?_, ?_, ?_⟩
    · simp [crop, h, hnall]
    · intro hx _
      exact absurd hx hnall
    · intro herr
      simp [crop, h] at herr
    · simp [crop]

/-- Witness for C3: a box past the sample cloud crops it to the empty cloud
when `allow_empty` is set. -/
theorem C3_crop_empty_error_witness :
    crop pcW ⟨some (.fin 10), none, none, none, none, none⟩ true true
      = (.ok [], pcW) :=
  (C3_crop_empty_error pcW ⟨some (.fin 10), none, none, none, none, none⟩
    true true).2.1 (by decide) rfl

/-- C4: for a nonempty cloud, `bounds` is the tight box — every field holds
the true minimum / maximum of the corresponding coordinate sequence; the
zero-point cloud has no bounds (`EmptyPointCloud`) and has length zero. -/
theorem C4_bounds_tight :
    (PointCloud.bounds [] = none ∧ ([] : PointCloud).length = 0) ∧
    (∀ pc : PointCloud, pc ≠ [] →
      ∃ b : Bounds, PointCloud.bounds pc = some b ∧
        (∃ m, b.minx = some (.fin m) ∧ IsMinOf m (pc.map Pt.x)) ∧
        (∃ m, b.miny = some (.fin m) ∧ IsMinOf m (pc.map Pt.y)) ∧
        (∃ m, b.minz = some (.fin m) ∧ IsMinOf m (pc.map Pt.z)) ∧
        (∃ m, b.maxx = some (.fin m) ∧ IsMaxOf m (pc.map Pt.x)) ∧
        (∃ m, b.maxy = some (.fin m) ∧ IsMaxOf m (pc.map Pt.y)) ∧
        (∃ m, b.maxz = some (.fin m) ∧ IsMaxOf m (pc.map Pt.z))) := by
  refine ⟨⟨rfl, rfl⟩, ?_⟩
  intro pc hne
  match pc with
  | [] => exact absurd rfl hne
  | p :: ps =>
    refine ⟨_, rfl, ?_, ?_, ?_, ?_, ?_, ?_⟩
    · refine ⟨arrMin p.x (ps.map Pt.x), rfl, ?_, ?_⟩
      · rw [List.map_cons]
        exact foldl_choice_mem min min_choice (ps.map Pt.x) p.x
      · intro c hc
        rw [List.map_cons] at hc
        exact foldl_min_le (ps.map Pt.x) p.x c hc
    · refine ⟨arrMin p.y (ps.map Pt.y), rfl, ?_, ?_⟩
      · rw [List.map_cons]
        exact foldl_choice_mem min min_choice (ps.map Pt.y) p.y
      · intro c hc
        rw [List.map_cons] at hc
        exact foldl_min_le (ps.map Pt.y) p.y c hc
    · refine ⟨arrMin p.z (ps.map Pt.z), rfl, ?_, ?_⟩
      · rw [List.map_cons]
        exact foldl_choice_mem min min_choice (ps.map Pt.z) p.z
      · intro c hc
        rw [List.map_cons] at hc
        exact foldl_min_le (ps.map Pt.z) p.z c hc
    · refine ⟨arrMax p.x (ps.map Pt.x), rfl, ?_, ?_⟩
      · rw [List.map_cons]
        exact foldl_choice_mem max max_choice (ps.map Pt.x) p.x
      · intro c hc
        rw [List.map_cons] at hc
        exact foldl_max_ge (ps.map Pt.x) p.x c hc
    · refine ⟨arrMax p.y (ps.map Pt.y), rfl, ?_, ?_⟩
      · rw [List.map_cons]
        exact foldl_choice_mem max max_choice (ps.map Pt.y) p.y
      · intro c hc
        rw [List.map_cons] at hc
        exact foldl_max_ge (ps.map Pt.y) p.y c hc
    · refine ⟨arrMax p.z (ps.map Pt.z), rfl, ?_, ?_⟩
      · rw [List.map_cons]
        exact foldl_choice_mem max max_choice (ps.map Pt.z) p.z
      · intro c hc
        rw [List.map_cons] at hc
        exact foldl_max_ge (ps.map Pt.z) p.z c hc

theorem Ext.emin_choice (a b : Ext) : Ext.emin a b = a ∨ Ext.emin a b = b := by
  unfold Ext.emin
  by_cases h : Ext.ble a b = true
  · exact Or.inl (if_pos h)
  · exact Or.inr (if_neg h)

theorem Ext.emax_choice (a b : Ext) : Ext.emax a b = a ∨ Ext.emax a b = b := by
  unfold Ext.emax
  by_cases h : Ext.ble a b = true
  · exact Or.inr (if_pos h)
  · exact Or.inl (if_neg h)

theorem Ext.emin_fin (u v : ℚ) : Ext.emin (.fin u) (.fin v) = .fin (min u v) := by
  unfold Ext.emin Ext.ble
  by_cases h : u ≤ v
  · simp [h, min_def]
  · simp [h, min_def]

theorem Ext.emax_fin (u v : ℚ) : Ext.emax (.fin u) (.fin v) = .fin (max u v) := by
  unfold Ext.emax Ext.ble
  by_cases h : u ≤ v
  · simp [h, max_def]
  · simp [h, max_def]

theorem arrMin_append (c d : ℚ) (l1 l2 : List ℚ) :
    arrMin c (l1 ++ d :: l2) = min (arrMin c l1) (arrMin d l2) := by
  unfold arrMin
  rw [List.foldl_append, List.foldl_cons, foldl_min_extract]

theorem arrMax_append (c d : ℚ) (l1 l2 : List ℚ) :
    arrMax c (l1 ++ d :: l2) = max (arrMax c l1) (arrMax d l2) := by
  unfold arrMax
  rw [List.foldl_append, List.foldl_cons, foldl_max_extract]

theorem intersects_axis_iff (qmin qmax : Option Ext) (fmin fmax : ℚ) :
    intersects_1D (qmin.getD .ninf, qmax.getD .pinf) (.fin fmin, .fin fmax) = true
      ↔ SpecAxisPass qmin qmax fmin fmax := by
  rcases qmin with _ | v <;> rcases qmax with _ | w <;>
    simp [intersects_1D, SpecAxisPass, Ext.le, Ext.ble]

theorem intersects_iff (b : Bounds) (fb : LasBounds) :
    intersects_3D (toInfBounds b) fb = true ↔ SpecIntersects b fb := by
  unfold intersects_3D SpecIntersects toInfBounds
  rw [Bool.and_eq_true, Bool.and_eq_true]
  rw [intersects_axis_iff, intersects_axis_iff, intersects_axis_iff]
  exact and_assoc

theorem cropH_frame (h : Heap) (i j : ℕ) (hne : j ≠ i) (b : Bounds) (ae : Bool)
    (h' : Heap) (seg : PointCloud) (hok : cropH h i b ae = .ok (h', seg)) :
    heapGet h' j = heapGet h j := by
  unfold cropH at hok
  by_cases hall : (heapGet h i).all (point_out_of_bounds b) = true
  · rw [if_pos hall] at hok
    cases ae
    · simp at hok
    · simp at hok
      rw [← hok.1]
  · rw [if_neg hall] at hok
    simp at hok
    rw [← hok.1]
    unfold heapGet
    simp [List.getD_eq_getElem?_getD, List.getElem?_set_ne (Ne.symm hne)]

theorem splitCropsH_frame (a : Axis) (ae : Bool) (i j : ℕ) (hne : j ≠ i) :
    ∀ (ds : List ℚ) (h h2 : Heap) (segs : List PointCloud),
      splitCropsH a ae i ds h = .ok (h2, segs) → heapGet h2 j = heapGet h j := by
  intro ds
  induction ds with
  | nil =>
    intro h h2 segs hok
    simp [splitCropsH] at hok
    rw [← hok.1]
  | cons loc rest ih =>
    intro h h2 segs hok
    unfold splitCropsH at hok
    rcases hc : cropH h i (replaceMin a (.fin loc) none_bounds) ae with b | hs
    · rw [hc] at hok
      simp at hok
    · obtain ⟨h', seg⟩ := hs
      rw [hc] at hok
      dsimp only at hok
      rcases hr : splitCropsH a ae i rest h' with b | hs'
      · rw [hr] at hok
        simp at hok
      · obtain ⟨h'', segs'⟩ := hs'
        rw [hr] at hok
        simp at hok
        rw [← hok.1]
        rw [ih h' h'' segs' hr]
        exact cropH_frame h i j hne _ ae h' seg hc

/-- Witness for C4 at the sample cloud. -/
theorem C4_bounds_tight_witness :
    ∃ b : Bounds, PointCloud.bounds pcW = some b ∧
      (∃ m, b.minx = some (.fin m) ∧ IsMinOf m (pcW.map Pt.x)) ∧
      (∃ m, b.miny = some (.fin m) ∧ IsMinOf m (pcW.map Pt.y)) ∧
      (∃ m, b.minz = some (.fin m) ∧ IsMinOf m (pcW.map Pt.z)) ∧
      (∃ m, b.maxx = some (.fin m) ∧ IsMaxOf m (pcW.map Pt.x)) ∧
      (∃ m, b.maxy = some (.fin m) ∧ IsMaxOf m (pcW.map Pt.y)) ∧
      (∃ m, b.maxz = some (.fin m) ∧ IsMaxOf m (pcW.map Pt.z)) :=
  C4_bounds_tight.2 pcW (by decide)

/-- C6: `merge` has length the sum of the input lengths, its points are the
inputs' points in concatenation order of the input sequence (no dedup, no
sort), and for two nonempty clouds the bounding box of `merge [a, b]` is
`merge_bounds [a.bounds, b.bounds]`. -/
theorem C6_merge_concat :
    (∀ pcs : List PointCloud, (merge pcs).length = (pcs.map List.length).sum) ∧
    (∀ (pc : PointCloud) (pcs : List PointCloud),
        merge (pc :: pcs) = pc ++ merge pcs) ∧
    merge [] = ([] : PointCloud) ∧
    (∀ a b : PointCloud, a ≠ [] → b ≠ [] →
      ∃ ba bb : Bounds, PointCloud.bounds a = some ba ∧
        PointCloud.bounds b = some bb ∧
        PointCloud.bounds (merge [a, b]) = merge_bounds [ba, bb]) := by
  refine ⟨?_, ?_, rfl, ?_⟩
  · intro pcs
    exact List.length_flatten pcs
  · intro pc pcs
    exact List.flatten_cons
  · intro a b ha hb
    match a, b with
    | [], _ => exact absurd rfl ha
    | _ :: _, [] => exact absurd rfl hb
    | p :: ps, q :: qs =>
      refine ⟨_, _, rfl, rfl, ?_⟩
      have hm : merge [p :: ps, q :: qs] = p :: (ps ++ q :: qs) := by
        simp [merge]
      rw [hm]
      simp only [PointCloud.bounds, merge_bounds, toInfBounds, List.map_cons,
        List.map_nil, List.map_append, List.foldl_cons, List.foldl_nil,
        Option.getD_some, arrMin_append, arrMax_append, Ext.emin_fin,
        Ext.emax_fin]

/-- Witness for C6 at two concrete one-point clouds. -/
theorem C6_merge_concat_witness :
    ∃ ba bb : Bounds, PointCloud.bounds [ptA] = some ba ∧
      PointCloud.bounds [ptB] = some bb ∧
      PointCloud.bounds (merge [[ptA], [ptB]]) = merge_bounds [ba, bb] :=
  C6_merge_concat.2.2.2 [ptA] [ptB] (by decide) (by decide)

/-- C7 counterexample: a sequence of exactly one box is not always returned
unchanged — a `None` side comes back as an infinity. -/
theorem C7_merge_bounds_cex : merge_bounds [boundsN] ≠ some boundsN := by decide

/-- C7 (amended): `merge_bounds` of a nonempty sequence returns the box whose
minimum fields are the minima and maximum fields the maxima of those fields
across all inputs, after coercing every `None` side to the appropriate signed
infinity; a single box all of whose sides are present (not `None`) is
returned unchanged. -/
theorem C7_merge_bounds :
    (∀ (b : Bounds) (bs : List Bounds),
      ∃ r : Bounds, merge_bounds (b :: bs) = some r ∧
        (∃ m, r.minx = some m ∧
          IsExtMinOf m ((b :: bs).map (fun u => (toInfBounds u).minx))) ∧
        (∃ m, r.miny = some m ∧
          IsExtMinOf m ((b :: bs).map (fun u => (toInfBounds u).miny))) ∧
        (∃ m, r.minz = some m ∧
          IsExtMinOf m ((b :: bs).map (fun u => (toInfBounds u).minz))) ∧
        (∃ m, r.maxx = some m ∧
          IsExtMaxOf m ((b :: bs).map (fun u => (toInfBounds u).maxx))) ∧
        (∃ m, r.maxy = some m ∧
          IsExtMaxOf m ((b :: bs).map (fun u => (toInfBounds u).maxy))) ∧
        (∃ m, r.maxz = some m ∧
          IsExtMaxOf m ((b :: bs).map (fun u => (toInfBounds u).maxz)))) ∧
    (∀ b : Bounds, b.minx ≠ none → b.miny ≠ none → b.minz ≠ none →
      b.maxx ≠ none → b.maxy ≠ none → b.maxz ≠ none →
      merge_bounds [b] = some b) := by
  constructor
  · intro b bs
    refine ⟨_, rfl, ?_, ?_, ?_, ?_, ?_, ?_⟩
    · refine ⟨_, rfl, ?_, ?_⟩
      · simpa [List.map_map, Function.comp] using
          foldl_choice_mem Ext.emin Ext.emin_choice
            ((bs.map toInfBounds).map InfBounds.minx) (toInfBounds b).minx
      · intro v hv
        refine foldl_emin_ble ((bs.map toInfBounds).map InfBounds.minx)
          (toInfBounds b).minx v ?_
        simpa [List.map_map, Function.comp] using hv
    · refine ⟨_, rfl, ?_, ?_⟩
      · simpa [List.map_map, Function.comp] using
          foldl_choice_mem Ext.emin Ext.emin_choice
            ((bs.map toInfBounds).map InfBounds.miny) (toInfBounds b).miny
      · intro v hv
        refine foldl_emin_ble ((bs.map toInfBounds).map InfBounds.miny)
          (toInfBounds b).miny v ?_
        simpa [List.map_map, Function.comp] using hv
    · refine ⟨_, rfl, ?_, ?_⟩
      · simpa [List.map_map, Function.comp] using
          foldl_choice_mem Ext.emin Ext.emin_choice
            ((bs.map toInfBounds).map InfBounds.minz) (toInfBounds b).minz
      · intro v hv
        refine foldl_emin_ble ((bs.map toInfBounds).map InfBounds.minz)
          (toInfBounds b).minz v ?_
        simpa [List.map_map, Function.comp] using hv
    · refine ⟨_, rfl, ?_, ?_⟩
      · simpa [List.map_map, Function.comp] using
          foldl_choice_mem Ext.emax Ext.emax_choice
            ((bs.map toInfBounds).map InfBounds.maxx) (toInfBounds b).maxx
      · intro v hv
        refine foldl_emax_ble ((bs.map toInfBounds).map InfBounds.maxx)
          (toInfBounds b).maxx v ?_
        simpa [List.map_map, Function.comp] using hv
    · refine ⟨_, rfl, ?_, ?_⟩
      · simpa [List.map_map, Function.comp] using
          foldl_choice_mem Ext.emax Ext.emax_choice
            ((bs.map toInfBounds).map InfBounds.maxy) (toInfBounds b).maxy
      · intro v hv
        refine foldl_emax_ble ((bs.map toInfBounds).map InfBounds.maxy)
          (toInfBounds b).maxy v ?_
        simpa [List.map_map, Function.comp] using hv
    · refine ⟨_, rfl, ?_, ?_⟩
      · simpa [List.map_map, Function.comp] using
          foldl_choice_mem Ext.emax Ext.emax_choice
            ((bs.map toInfBounds).map InfBounds.maxz) (toInfBounds b).maxz
      · intro v hv
        refine foldl_emax_ble ((bs.map toInfBounds).map InfBounds.maxz)
          (toInfBounds b).maxz v ?_
        simpa [List.map_map, Function.comp] using hv
  · intro b h1 h2 h3 h4 h5 h6
    rcases b with ⟨f1, f2, f3, f4, f5, f6⟩
    rcases f1 with _ | v1
    · exact absurd rfl h1
    · rcases f2 with _ | v2
      · exact absurd rfl h2
      · rcases f3 with _ | v3
        · exact absurd rfl h3
        · rcases f4 with _ | v4
          · exact absurd rfl h4
          · rcases f5 with _ | v5
            · exact absurd rfl h5
            · rcases f6 with _ | v6
              · exact absurd rfl h6
              · rfl

/-- Witness for C7 at an all-finite box. -/
theorem C7_merge_bounds_witness :
    merge_bounds [(⟨some (.fin 0), some (.fin 0), some (.fin 0),
                    some (.fin 1), some (.fin 1), some (.fin 1)⟩ : Bounds)]
      = some ⟨some (.fin 0), some (.fin 0), some (.fin 0),
              some (.fin 1), some (.fin 1), some (.fin 1)⟩ :=
  C7_merge_bounds.2 ⟨some (.fin 0), some (.fin 0), some (.fin 0),
                     some (.fin 1), some (.fin 1), some (.fin 1)⟩
    (by decide) (by decide) (by decide) (by decide) (by decide) (by decide)

/-- C8: the dict comprehension in `_combine_las` collapses a repeated source
path, so for the input path list `[p, p]` the aggregate holds the file's
point once, while the sources' data concatenated in input path order (as the
claim requires) holds it twice — the preallocated buffer is sized by the
dict, not by the sum over the input list. -/
theorem C8_combine_las_dup :
    combine_las readW [0, 0] = [ptA] ∧
    ([0, 0].map readW).flatten = [ptA, ptA] ∧
    (combine_las readW [0, 0]).length ≠ (([0, 0].map readW).flatten).length := by
  refine ⟨by decide, by decide, by decide⟩

/-- C9: `filter_fpaths` keeps a path iff the query box and the path's header
box intersect under the per-axis half-open test (`None` query sides passing
always), keeps paths in their original relative order, and is idempotent. -/
theorem C9_filter_fpaths :
    ∀ (P : Type) (hdr : P → LasBounds) (fpaths : List P) (b : Bounds),
      (∀ fp, fp ∈ filter_fpaths hdr fpaths b ↔
        (fp ∈ fpaths ∧ SpecIntersects b (hdr fp))) ∧
      (filter_fpaths hdr fpaths b).Sublist fpaths ∧
      filter_fpaths hdr (filter_fpaths hdr fpaths b) b
        = filter_fpaths hdr fpaths b := by
  intro P hdr fpaths b
  refine ⟨?_, List.filter_sublist _, ?_⟩
  · intro fp
    unfold filter_fpaths
    rw [List.mem_filter]
    constructor
    · rintro ⟨h1, h2⟩
      exact ⟨h1, (intersects_iff b (hdr fp)).mp h2⟩
    · rintro ⟨h1, h2⟩
      exact ⟨h1, (intersects_iff b (hdr fp)).mpr h2⟩
  · unfold filter_fpaths
    rw [List.filter_filter]
    exact List.filter_congr fun fp _ => Bool.and_self _

/-- Witness for C9 at a concrete path list, header probe and box. -/
theorem C9_filter_fpaths_witness :
    (0 ∈ filter_fpaths (fun _ : ℕ => lasW) [0] none_bounds ↔
      (0 ∈ [0] ∧ SpecIntersects none_bounds lasW)) ∧
    (filter_fpaths (fun _ : ℕ => lasW) [0] none_bounds).Sublist [0] ∧
    filter_fpaths (fun _ : ℕ => lasW)
        (filter_fpaths (fun _ : ℕ => lasW) [0] none_bounds) none_bounds
      = filter_fpaths (fun _ : ℕ => lasW) [0] none_bounds := by
  have h := C9_filter_fpaths ℕ (fun _ => lasW) [0] none_bounds
  exact ⟨h.1 0, h.2.1, h.2.2⟩

/-- C10: `split` leaves the cloud it was called on unchanged: the copy
constructor allocates a fresh buffer, and every destructive crop inside
`split` targets only that fresh buffer, never the source's. -/
theorem C10_split_source_unchanged :
    ∀ (h : Heap) (self : ℕ) (a : Axis) (locs : List ℚ) (ae : Bool)
      (h2 : Heap) (segs : List PointCloud),
      self < h.length →
      splitH h self a locs ae = .ok (h2, segs) →
      heapGet h2 self = heapGet h self := by
  intro h self a locs ae h2 segs hlt hok
  unfold splitH at hok
  rcases hr : splitCropsH a ae h.length ((sortedAsc locs).reverse)
      (h ++ [heapGet h self]) with b | hs
  · rw [hr] at hok
    simp at hok
  · obtain ⟨h3, segs'⟩ := hs
    rw [hr] at hok
    simp at hok
    have hne : self ≠ h.length := Nat.ne_of_lt hlt
    have hframe := splitCropsH_frame a ae h.length self hne _ _ _ _ hr
    rw [← hok.1, hframe]
    unfold heapGet
    rw [List.getD_eq_getElem?_getD, List.getD_eq_getElem?_getD,
      List.getElem?_append]
    rw [if_pos hlt]

/-! Helper lemmas for the `split` segmentation claim. -/

theorem not_decide_lt (c d : ℚ) : (!decide (c < d)) = decide (d ≤ c) := by
  by_cases h : c < d
  · simp [h, not_le.mpr h]
  · simp [h, not_lt.mp h]

theorem splitCrops_spec (a : Axis) :
    ∀ (ds : List ℚ) (hi : Option ℚ) (pc : PointCloud),
      List.Sorted (· ≥ ·) ds →
      (∀ hh, hi = some hh → ∀ d ∈ ds, d ≤ hh) →
      splitCrops a true ds (pc.filter (fun p => belowOpt hi (p.coord a))) =
        .ok ((intervalsDesc hi ds).map
               (fun lh => pc.filter (fun p => between lh.1 lh.2 (p.coord a))),
             pc.filter (fun p =>
               belowOpt hi (p.coord a)
                 && ds.all (fun d => decide (p.coord a < d)))) := by
  intro ds
  induction ds with
  | nil =>
    intro hi pc _ _
    simp [splitCrops, intervalsDesc]
  | cons d ds ih =>
    intro hi pc hsort hok
    have hd : ∀ e ∈ ds, d ≥ e := List.rel_of_sorted_cons hsort
    have hsort' : List.Sorted (· ≥ ·) ds := hsort.of_cons
    have hdhi : ∀ hh, hi = some hh → d ≤ hh :=
      fun hh he => hok hh he d (List.mem_cons_self d ds)
    have hbo : ∀ c : ℚ, c < d → belowOpt hi c = true := by
      intro c hc
      rcases hi with _ | hh
      · rfl
      · have hle := hdhi hh rfl
        simp only [belowOpt, decide_eq_true_eq]
        exact lt_of_lt_of_le hc hle
    unfold splitCrops
    rw [crop_destructive_allow]
    dsimp only
    simp only [List.filter_filter]
    simp only [oob_replaceMin]
    have hseg : pc.filter (fun p =>
          (!decide (p.coord a < d)) && belowOpt hi (p.coord a))
        = pc.filter (fun p => between d hi (p.coord a)) := by
      refine List.filter_congr fun p _ => ?_
      unfold between
      rw [not_decide_lt]
    have hrem : pc.filter (fun p =>
          decide (p.coord a < d) && belowOpt hi (p.coord a))
        = pc.filter (fun p => belowOpt (some d) (p.coord a)) := by
      refine List.filter_congr fun p _ => ?_
      by_cases hc : p.coord a < d
      · rw [hbo (p.coord a) hc]
        simp [belowOpt, hc]
      · simp [belowOpt, hc]
    rw [hseg, hrem, ih (some d) pc hsort' ?hok']
    case hok' =>
      intro hh he
      injection he with he
      intro e hee
      rw [← he]
      exact hd e hee
    dsimp only
    have hfin : pc.filter (fun p => belowOpt (some d) (p.coord a)
          && ds.all (fun e => decide (p.coord a < e)))
        = pc.filter (fun p => belowOpt hi (p.coord a)
          && (d :: ds).all (fun e => decide (p.coord a < e))) := by
      refine List.filter_congr fun p _ => ?_
      rw [List.all_cons]
      by_cases hc : p.coord a < d
      · rw [hbo (p.coord a) hc]
        simp [belowOpt, hc]
      · simp [belowOpt, hc]
    rw [hfin]
    rfl

theorem splitCrops_perm (a : Axis) :
    ∀ (ds : List ℚ) (pc : PointCloud) (segs : List PointCloud)
      (last : PointCloud),
      splitCrops a true ds pc = .ok (segs, last) →
      (segs.flatten ++ last).Perm pc := by
  intro ds
  induction ds with
  | nil =>
    intro pc segs last hok
    simp [splitCrops] at hok
    rw [hok.1, ← hok.2]
    simp
  | cons d t ih =>
    intro pc segs last hok
    unfold splitCrops at hok
    rw [crop_destructive_allow] at hok
    dsimp only at hok
    rcases hr : splitCrops a true t
        (pc.filter (point_out_of_bounds (replaceMin a (.fin d) none_bounds)))
      with b | hs
    · rw [hr] at hok
      simp at hok
    · obtain ⟨segs', last'⟩ := hs
      rw [hr] at hok
      simp at hok
      rw [← hok.1, ← hok.2]
      rw [List.flatten_cons, List.append_assoc]
      refine List.Perm.trans (List.Perm.append_left _ (ih _ segs' last' hr)) ?_
      have hp := List.filter_append_perm
        (fun p => !point_out_of_bounds (replaceMin a (.fin d) none_bounds) p) pc
      simp only [Bool.not_not] at hp
      exact hp

theorem adjPairs_snoc : ∀ (t : List ℚ) (e : ℚ) (hi : Option ℚ),
    adjPairs (t ++ [e]) hi = adjPairs t (some e) ++ [(e, hi)] := by
  intro t
  induction t with
  | nil => intro e hi; rfl
  | cons x xs ih =>
    intro e hi
    cases xs with
    | nil => rfl
    | cons y ys =>
      show (x, some y) :: adjPairs ((y :: ys) ++ [e]) hi
          = ((x, some y) :: adjPairs (y :: ys) (some e)) ++ [(e, hi)]
      rw [ih e hi]
      rfl

theorem intervalsDesc_reverse : ∀ (l : List ℚ) (hi : Option ℚ),
    (intervalsDesc hi l).reverse = adjPairs l.reverse hi := by
  intro l
  induction l with
  | nil => intro hi; rfl
  | cons d t ih =>
    intro hi
    show ((d, hi) :: intervalsDesc (some d) t).reverse
        = adjPairs ((d :: t).reverse) hi
    rw [List.reverse_cons, ih (some d), List.reverse_cons, adjPairs_snoc]

theorem adjPairs_length : ∀ (s : List ℚ) (hi : Option ℚ),
    (adjPairs s hi).length = s.length := by
  intro s
  induction s with
  | nil => intro hi; rfl
  | cons x xs ih =>
    intro hi
    cases xs with
    | nil => rfl
    | cons y ys =>
      show ((x, some y) :: adjPairs (y :: ys) hi).length = (x :: y :: ys).length
      simp [ih hi]

theorem adjPairs_getElem? : ∀ (s : List ℚ) (hi : Option ℚ) (k : ℕ),
    (adjPairs s hi)[k]? =
      (match s[k]?, s[k+1]? with
       | none, _ => none
       | some lo, none => some (lo, hi)
       | some lo, some nxt => some (lo, some nxt)) := by
  intro s
  induction s with
  | nil =>
    intro hi k
    simp [adjPairs]
  | cons x xs ih =>
    intro hi k
    cases xs with
    | nil =>
      cases k with
      | zero => simp [adjPairs]
      | succ k => simp [adjPairs]
    | cons y ys =>
      cases k with
      | zero => simp [adjPairs]
      | succ k =>
        show ((x, some y) :: adjPairs (y :: ys) hi)[k+1]? = _
        have hih := ih hi k
        simp only [List.getElem?_cons_succ] at hih ⊢
        exact hih

theorem all_lt_sorted_head (s0 : ℚ) (t : List ℚ)
    (hs : List.Sorted (· ≤ ·) (s0 :: t)) (c : ℚ) :
    (s0 :: t).all (fun d => decide (c < d)) = decide (c < s0) := by
  rw [List.all_cons]
  by_cases hc : c < s0
  · simp only [hc, decide_True, Bool.true_and]
    rw [List.all_eq_true]
    · intro e he
      simp only [decide_eq_true_eq]
      exact lt_of_lt_of_le hc (List.rel_of_sorted_cons hs e he)
  · simp [hc]

theorem all_lt_eq_segPred_zero (s : List ℚ) (hs : List.Sorted (· ≤ ·) s) (c : ℚ) :
    s.all (fun d => decide (c < d)) = segPred s 0 c := by
  cases s with
  | nil => rfl
  | cons s0 t =>
    rw [all_lt_sorted_head s0 t hs c]
    simp [segPred]

theorem segPred_succ (s : List ℚ) (k : ℕ) (c : ℚ) :
    segPred s (k+1) c =
      ((match s[k]? with
        | some lo => decide (lo ≤ c)
        | none => true) &&
       (match s[k+1]? with
        | some hi => decide (c < hi)
        | none => true)) := rfl

theorem segPred_upper (s : List ℚ) (i : ℕ) (c : ℚ) (h : segPred s i c = true) :
    (match s[i]? with
     | some hi => decide (c < hi)
     | none => true) = true := by
  unfold segPred at h
  rw [Bool.and_eq_true] at h
  exact h.2

theorem segPred_lower (s : List ℚ) (k : ℕ) (c : ℚ)
    (h : segPred s (k+1) c = true) :
    (match s[k]? with
     | some lo => decide (lo ≤ c)
     | none => true) = true := by
  rw [segPred_succ, Bool.and_eq_true] at h
  exact h.1

theorem between_segPred (s : List ℚ) (k : ℕ) (lo : ℚ) (hlo : s[k]? = some lo)
    (c : ℚ) : between lo (s[k+1]?) c = segPred s (k+1) c := by
  rw [segPred_succ, hlo]
  rcases hnext : s[k+1]? with _ | nxt
  · simp [between, belowOpt]
  · simp [between, belowOpt]

theorem segPred_disjoint (s : List ℚ) (hs : List.Sorted (· ≤ ·) s) (i j : ℕ)
    (hj : j < s.length + 1) (hij : i < j) (c : ℚ)
    (h1 : segPred s i c = true) (h2 : segPred s j c = true) : False := by
  have hi' : i < s.length := lt_of_lt_of_le hij (Nat.lt_succ_iff.mp hj)
  -- segment i has the upper limit s[i]
  have hub : c < s[i] := by
    have h1b := segPred_upper s i c h1
    rw [List.getElem?_eq_getElem hi'] at h1b
    simpa using h1b
  -- segment j = jj+1 has the lower limit s[jj]
  rcases j with _ | jj
  · exact absurd hij (Nat.not_lt_zero i)
  · have hjj : jj < s.length := Nat.lt_succ_iff.mp hj
    have hlb : s[jj] ≤ c := by
      have h2a := segPred_lower s jj c h2
      rw [List.getElem?_eq_getElem hjj] at h2a
      simpa using h2a
    have hle : s[i] ≤ s[jj] := by
      rcases Nat.lt_or_ge i jj with hlt | hge
      · have hfin : (⟨i, hi'⟩ : Fin s.length) < ⟨jj, hjj⟩ := hlt
        have hrel := @List.Sorted.rel_get_of_lt ℚ _ s hs ⟨i, hi'⟩ ⟨jj, hjj⟩ hfin
        simpa using hrel
      · have heq : i = jj := le_antisymm (Nat.lt_succ_iff.mp hij) hge
        subst heq
        exact le_refl _
    exact absurd (lt_of_lt_of_le hub (le_trans hle hlb)) (lt_irrefl c)

/-- C5: `split` with `allow_empty` true returns `locations.length + 1` clouds
in ascending order along the axis: with the locations sorted ascending,
segment `k` holds exactly the points of the cloud whose coordinate lies in
the half-open interval from location `k-1` (no lower limit for the first
segment) to location `k` (no upper limit for the last); the segments are
pairwise disjoint and together are a permutation of the original points. -/
theorem C5_split_segments :
    ∀ (pc : PointCloud) (a : Axis) (locs : List ℚ),
      ∃ segs : List PointCloud,
        split pc a locs true = .ok segs ∧
        segs.length = locs.length + 1 ∧
        (∀ (k : ℕ) (hk : k < segs.length),
          segs.get ⟨k, hk⟩
            = pc.filter (fun p => segPred (sortedAsc locs) k (p.coord a))) ∧
        (∀ (i j : ℕ) (hi : i < segs.length) (hj : j < segs.length), i ≠ j →
          ∀ p : Pt, p ∈ segs.get ⟨i, hi⟩ → p ∈ segs.get ⟨j, hj⟩ → False) ∧
        segs.flatten.Perm pc := by
  intro pc a locs
  have hsort : List.Sorted (· ≤ ·) (sortedAsc locs) :=
    List.sorted_insertionSort _ locs
  have hdesc : List.Sorted (· ≥ ·) (sortedAsc locs).reverse := by
    rw [List.Sorted, List.pairwise_reverse]
    exact hsort
  have hpc0 : pc.filter (fun p => belowOpt none (p.coord a)) = pc :=
    List.filter_eq_self.mpr (fun p _ => rfl)
  have hmain := splitCrops_spec a ((sortedAsc locs).reverse) none pc hdesc
    (by intro hh he; cases he)
  rw [hpc0] at hmain
  have hsplit : split pc a locs true
      = .ok ((((intervalsDesc none ((sortedAsc locs).reverse)).map
              (fun lh => pc.filter (fun p => between lh.1 lh.2 (p.coord a))))
            ++ [pc.filter (fun p => belowOpt none (p.coord a)
                && ((sortedAsc locs).reverse).all
                    (fun d => decide (p.coord a < d)))]).reverse) := by
    unfold split
    rw [hmain]
  rw [List.reverse_concat, ← List.map_reverse, intervalsDesc_reverse,
    List.reverse_reverse] at hsplit
  have hlen : ((adjPairs (sortedAsc locs) none).map
      (fun lh => pc.filter (fun p => between lh.1 lh.2 (p.coord a)))).length
        = (sortedAsc locs).length := by
    rw [List.length_map, adjPairs_length]
  have hslen : (sortedAsc locs).length = locs.length :=
    (List.perm_insertionSort _ locs).length_eq
  -- the per-index characterization of the returned segments
  have hchar : ∀ (k : ℕ)
      (hk : k < (pc.filter (fun p => belowOpt none (p.coord a)
            && ((sortedAsc locs).reverse).all (fun d => decide (p.coord a < d)))
          :: (adjPairs (sortedAsc locs) none).map
              (fun lh => pc.filter (fun p => between lh.1 lh.2 (p.coord a)))).length),
      (pc.filter (fun p => belowOpt none (p.coord a)
            && ((sortedAsc locs).reverse).all (fun d => decide (p.coord a < d)))
          :: (adjPairs (sortedAsc locs) none).map
              (fun lh => pc.filter (fun p => between lh.1 lh.2 (p.coord a)))).get
          ⟨k, hk⟩
        = pc.filter (fun p => segPred (sortedAsc locs) k (p.coord a)) := by
    intro k hk
    cases k with
    | zero =>
      show pc.filter _ = pc.filter _
      refine List.filter_congr fun p _ => ?_
      have hb : belowOpt none (p.coord a) = true := rfl
      rw [hb, Bool.true_and, List.all_reverse]
      exact all_lt_eq_segPred_zero (sortedAsc locs) hsort (p.coord a)
    | succ k =>
      have hk' : k < ((adjPairs (sortedAsc locs) none).map
          (fun lh => pc.filter (fun p => between lh.1 lh.2 (p.coord a)))).length := by
        simpa using Nat.lt_of_succ_lt_succ hk
      have hks : k < (sortedAsc locs).length := by
        rw [hlen] at hk'
        exact hk'
      rw [List.get_cons_succ]
      have hlo : (sortedAsc locs)[k]? = some ((sortedAsc locs)[k]) :=
        List.getElem?_eq_getElem hks
      have hadj : (adjPairs (sortedAsc locs) none)[k]?
          = some ((sortedAsc locs)[k], (sortedAsc locs)[k+1]?) := by
        rw [adjPairs_getElem?, hlo]
        rcases hnext : (sortedAsc locs)[k+1]? with _ | nxt
        · rfl
        · rfl
      have hmap : ((adjPairs (sortedAsc locs) none).map
            (fun lh => pc.filter (fun p => between lh.1 lh.2 (p.coord a))))[k]?
          = some (pc.filter (fun p =>
              between ((sortedAsc locs)[k])
                ((sortedAsc locs)[k+1]?) (p.coord a))) := by
        rw [List.getElem?_map, hadj]
        rfl
      have hsome := List.getElem?_eq_getElem hk'
      rw [hsome] at hmap
      injection hmap with hmap
      show ((adjPairs (sortedAsc locs) none).map
          (fun lh => pc.filter (fun p => between lh.1 lh.2 (p.coord a))))[k]
        = pc.filter (fun p => segPred (sortedAsc locs) (k+1) (p.coord a))
      rw [hmap]
      refine List.filter_congr fun p _ => ?_
      exact between_segPred (sortedAsc locs) k _ hlo (p.coord a)
  refine ⟨_, hsplit, ?_, hchar, ?_, ?_⟩
  · show _ + 1 = locs.length + 1
    rw [hlen, hslen]
  · intro i j hi hj hne p hpi hpj
    rw [hchar i hi] at hpi
    rw [hchar j hj] at hpj
    have hpi' := (List.mem_filter.mp hpi).2
    have hpj' := (List.mem_filter.mp hpj).2
    have hjlen : j < (sortedAsc locs).length + 1 := by
      have := hj
      simp only [List.length_cons, hlen] at this
      exact this
    have hilen : i < (sortedAsc locs).length + 1 := by
      have := hi
      simp only [List.length_cons, hlen] at this
      exact this
    rcases Nat.lt_or_ge i j with hij | hge
    · exact segPred_disjoint (sortedAsc locs) hsort i j hjlen hij
        (p.coord a) hpi' hpj'
    · have hij : j < i := lt_of_le_of_ne hge (Ne.symm hne)
      exact segPred_disjoint (sortedAsc locs) hsort j i hilen hij
        (p.coord a) hpj' hpi'
  · have hperm := splitCrops_perm a ((sortedAsc locs).reverse) pc _ _ hmain
    have heq : (adjPairs (sortedAsc locs) none).map
          (fun lh => pc.filter (fun p => between lh.1 lh.2 (p.coord a)))
        = ((intervalsDesc none ((sortedAsc locs).reverse)).map
            (fun lh => pc.filter (fun p => between lh.1 lh.2 (p.coord a)))).reverse := by
      rw [← List.map_reverse, intervalsDesc_reverse, List.reverse_reverse]
    rw [List.flatten_cons, heq]
    refine List.Perm.trans ?_ hperm
    refine List.Perm.trans (List.perm_append_comm) ?_
    exact List.Perm.append_right _ ((List.reverse_perm _).flatten)

/-- Witness for C5 at a concrete cloud, axis and location list. -/
theorem C5_split_segments_witness :
    ∃ segs : List PointCloud,
      split pcW Axis.x [1] true = .ok segs ∧
      segs.length = 2 ∧
      (∀ (k : ℕ) (hk : k < segs.length),
        segs.get ⟨k, hk⟩
          = pcW.filter (fun p => segPred (sortedAsc [1]) k (p.coord Axis.x))) ∧
      (∀ (i j : ℕ) (hi : i < segs.length) (hj : j < segs.length), i ≠ j →
        ∀ p : Pt, p ∈ segs.get ⟨i, hi⟩ → p ∈ segs.get ⟨j, hj⟩ → False) ∧
      segs.flatten.Perm pcW :=
  C5_split_segments pcW Axis.x [1]

/-- Witness for C10 at a concrete heap, source cloud and split. -/
theorem C10_split_source_unchanged_witness :
    heapGet [pcW, [ptA]] 0 = heapGet [pcW] 0 :=
  C10_split_source_unchanged [pcW] 0 .x [1] true [pcW, [ptA]] [[ptA], [ptB]]
    (by decide) (by rfl)

end Simulocloud
